import Mathlib

/-!
Shallow embedding of the simuPOP sandbox operators (src/sandbox.cpp):
the infinite-sites mutator, selector, recombinator and the fixed-site
trimmer.  Site identifiers and alleles are modelled as natural numbers
(0 is the reserved empty-slot sentinel), selection coefficients as
rationals, haplotype slots as lists of naturals, and sorted associative
containers (std::set, std::map key order) as sorted duplicate-free
lists.  External services (Python callbacks, random draws) are passed
in as explicit oracle parameters; the C++ classes' mutable members
become explicit state records threaded through the functions.
-/

namespace SimuPOP

/-- A haplotype slot is packed left: once a sentinel 0 entry appears,
every later entry is 0 as well (data-model invariant of the sparse
haplotype store). -/
def packedLeft (l : List ℕ) : Bool :=
  (l.dropWhile (· ≠ 0)).all (· = 0)

/-- The contents of a std::set of alleles built from an iterator range:
the distinct elements in ascending order. -/
def toSetL (l : List ℕ) : List ℕ :=
  l.dedup.insertionSort (· ≤ ·)

/-- std::set insertion (m_mutants.insert) on the sorted-unique list
representation. -/
def setInsert (x : ℕ) : List ℕ → List ℕ
  | [] => [x]
  | y :: t => if x < y then x :: y :: t else if x = y then y :: t else y :: setInsert x t

/-! ## RevertFixedSites (FixationTrimmer, sandbox.cpp lines 32-83)

A population is a list of individuals; each individual carries its two
ploidy copies as lists of alleles spanning all loci
(genoBegin(p) .. genoEnd(p), each of length totNumLoci). -/

/-- One individual: the two genotype spans (ploidy copy 0 and 1). -/
structure RInd where
  c0 : List ℕ
  c1 : List ℕ
  deriving DecidableEq, Repr

/-- The intersection loop of RevertFixedSites::apply (lines 44-59):
starting from the running common-allele set, intersect with each
individual's copy-0 and copy-1 allele sets (set_intersection on sorted
sets keeps the sorted order), returning early (with the empty set,
which makes apply a no-op) as soon as the intersection is empty. -/
def computeFixedLoop : List ℕ → List RInd → List ℕ
  | common, [] => common
  | common, ind :: rest =>
    let c := (common.filter (· ∈ ind.c0)).filter (· ∈ ind.c1)
    if c = [] then c else computeFixedLoop c rest

/-- The fixed-site set computed by RevertFixedSites::apply: the alleles of
the first individual's copy 0 (minus the sentinel 0), intersected with
both copies of every individual.  Empty when the population is empty or
any intermediate intersection is empty. -/
def fixedSet (pop : List RInd) : List ℕ :=
  match pop with
  | [] => []
  | ind0 :: _ =>
    if (toSetL ind0.c0).filter (· ≠ 0) = [] then []
    else computeFixedLoop ((toSetL ind0.c0).filter (· ≠ 0)) pop

/-- The per-copy rewrite (lines 71-80): collect the copy's distinct
non-zero alleles into a sorted set, remove the fixed sites
(set_difference writes the sorted remainder into a zero-filled buffer of
totNumLoci entries), and copy the buffer back over the genotype span. -/
def trimSlot (fixed : List ℕ) (n : ℕ) (slot : List ℕ) : List ℕ :=
  let diff := (toSetL slot).filter (fun x => x ≠ 0 ∧ x ∉ fixed)
  diff ++ List.replicate (n - diff.length) 0

/-- RevertFixedSites::apply.  n is pop.totNumLoci().  Returns the updated
population together with the operator's boolean result (always true). -/
def revertApply (n : ℕ) (pop : List RInd) : List RInd × Bool :=
  if pop.isEmpty ∨ n = 0 then (pop, true)
  else if fixedSet pop = [] then (pop, true)
  else
    (pop.map (fun ind =>
      ⟨trimSlot (fixedSet pop) n ind.c0, trimSlot (fixedSet pop) n ind.c1⟩), true)

/-! ## InfSitesSelector (FitnessEvaluator, sandbox.cpp lines 86-321)

The mutable members of the operator become an explicit state record:
m_selFactory (an allele-keyed map of (s, h) pairs, modelled as an
association list with overwrite-on-insert), m_newMutants, m_additive and
a counter indexing the external draws consumed so far.  m_selDist is
either a user-supplied Python function or a numeric parameter vector;
the values produced by the Python interpreter and by randGamma are
external services, supplied as oracle functions of the draw counter. -/

/-- Selection coefficient pair (s, h): SelCoef = std::pair of doubles. -/
abbrev SelCoef := ℚ × ℚ

/-- Mutable state of an InfSitesSelector instance. -/
structure SelState where
  selFactory : List (ℕ × SelCoef)
  newMutants : List ℕ
  additive : Bool
  rng : ℕ
  deriving DecidableEq, Repr

/-- m_selDist: size 0 means a user-supplied function; otherwise a numeric
vector whose first entry selects CONSTANT or the gamma distribution. -/
inductive SelDist where
  /-- User function mode: the oracle maps (draw counter, mutant) to the
  sequence the Python call returned; a plain numeric return is a
  singleton list, an empty list stands for a non-numeric result
  (s stays 0, h stays 0.5). -/
  | func (ret : ℕ → ℕ → List ℚ)
  /-- Numeric vector mode: the contents of m_selDist. -/
  | dist (params : List ℚ)

/-- Modelled from the spec: numeric tag of the constant-distribution mode
(the CONSTANT enumerator is declared in a header that is not part of
src/; its value never matters for the claims, only whether
params[0] = CONSTANT). -/
def CONSTANT : ℚ := 1

/-- randGamma draws, indexed by the state's draw counter. -/
abbrev GammaOracle := ℕ → ℚ

/-- std::map insertion with overwrite (m_selFactory[mutant] = coef). -/
def mapInsert (k : ℕ) (v : SelCoef) (m : List (ℕ × SelCoef)) : List (ℕ × SelCoef) :=
  (k, v) :: m.filter (fun p => p.1 ≠ k)

/-- InfSitesSelector::getFitnessValue (lines 125-179).  Returns the
resolved (s, h) pair and the updated state.  In function mode the pair
is returned directly (no insertion into m_selFactory, no push onto
m_newMutants); in numeric mode the pair is stored and the mutant
recorded.  Both modes downgrade m_additive when the resolved h is not
0.5. -/
def getFitnessValue (sd : SelDist) (g : GammaOracle) (mutant : ℕ) (st : SelState) :
    SelCoef × SelState :=
  match sd with
  | .func ret =>
    let res := ret st.rng mutant
    let s := res.getD 0 0
    let h := if res.length > 1 then res.getD 1 (1/2) else 1/2
    ((s, h),
      { st with
        rng := st.rng + 1
        additive := if st.additive ∧ h ≠ 1/2 then false else st.additive })
  | .dist params =>
    let mode := params.getD 0 0
    let s := if mode = CONSTANT then params.getD 1 0 else g st.rng
    let h :=
      if mode = CONSTANT then (if params.length > 2 then params.getD 2 (1/2) else 1/2)
      else (if params.length > 3 then params.getD 3 (1/2) else 1/2)
    ((s, h),
      { st with
        selFactory := mapInsert mutant (s, h) st.selFactory
        newMutants := st.newMutants ++ [mutant]
        rng := if mode = CONSTANT then st.rng else st.rng + 1
        additive := if st.additive ∧ h ≠ 1/2 then false else st.additive })

/-- The cache-first resolution step used by every fitness routine:
m_selFactory.find, falling back to getFitnessValue on a miss. -/
def resolveCoef (sd : SelDist) (g : GammaOracle) (mutant : ℕ) (st : SelState) :
    SelCoef × SelState :=
  match st.selFactory.lookup mutant with
  | some c => (c, st)
  | none => getFitnessValue sd g mutant st

/-- The accumulation loop of randomSelAddFitness (lines 182-196): skip
zero entries, add s/2 per occurrence (no deduplication). -/
def addFastLoop (sd : SelDist) (g : GammaOracle) :
    List ℕ → ℚ × SelState → ℚ × SelState
  | [], acc => acc
  | x :: rest, (s, st) =>
    if x = 0 then addFastLoop sd g rest (s, st)
    else
      let (c, st') := resolveCoef sd g x st
      addFastLoop sd g rest (s + c.1 / 2, st')

/-- InfSitesSelector::randomSelAddFitness: the additive fast path,
returning max(0, 1 - sum). -/
def randomSelAddFitness (sd : SelDist) (g : GammaOracle) (geno : List ℕ)
    (st : SelState) : ℚ × SelState :=
  let (s, st') := addFastLoop sd g geno (0, st)
  (if 1 - s > 0 then 1 - s else 0, st')

/-- The distinct-site keys of the occurrence map MutCounter built by the
general fitness routines: the genotype's non-zero entries, as iterated
in std::map (sorted ascending key) order. -/
def mutKeys (geno : List ℕ) : List ℕ :=
  toSetL (geno.filter (· ≠ 0))

/-- Occurrence count of a site in the MutCounter map. -/
def mutCnt (geno : List ℕ) (x : ℕ) : ℕ :=
  (geno.filter (· ≠ 0)).count x

/-- The product loop of randomSelMulFitnessExt (lines 230-247): for each
distinct site, multiply by 1 - s*h when it occurs once and by 1 - s when
it occurs twice. -/
def mulExtLoop (sd : SelDist) (g : GammaOracle) (cnt : ℕ → ℕ) :
    List ℕ → ℚ × SelState → ℚ × SelState
  | [], acc => acc
  | x :: rest, (s, st) =>
    let (c, st') := resolveCoef sd g x st
    mulExtLoop sd g cnt rest
      (s * (if cnt x = 1 then 1 - c.1 * c.2 else 1 - c.1), st')

/-- InfSitesSelector::randomSelMulFitnessExt (lines 216-249). -/
def randomSelMulFitnessExt (sd : SelDist) (g : GammaOracle) (geno : List ℕ)
    (st : SelState) : ℚ × SelState :=
  mulExtLoop sd g (mutCnt geno) (mutKeys geno) (1, st)

/-- The summation loop shared (textually) by randomSelAddFitnessExt and
randomSelExpFitnessExt: for each distinct site add s*h when it occurs
once and s when it occurs twice. -/
def addExtLoop (sd : SelDist) (g : GammaOracle) (cnt : ℕ → ℕ) :
    List ℕ → ℚ × SelState → ℚ × SelState
  | [], acc => acc
  | x :: rest, (s, st) =>
    let (c, st') := resolveCoef sd g x st
    addExtLoop sd g cnt rest
      (s + (if cnt x = 1 then c.1 * c.2 else c.1), st')

/-- InfSitesSelector::randomSelAddFitnessExt (lines 252-285): the general
additive path, returning max(0, 1 - sum). -/
def randomSelAddFitnessExt (sd : SelDist) (g : GammaOracle) (geno : List ℕ)
    (st : SelState) : ℚ × SelState :=
  let (s, st') := addExtLoop sd g (mutCnt geno) (mutKeys geno) (0, st)
  (if 1 - s > 0 then 1 - s else 0, st')

/-- The accumulated sum of randomSelExpFitnessExt (lines 288-321); the
C++ function returns exp(-sum), which the theorems state via Real.exp
applied to this rational sum. -/
def randomSelExpFitnessExtSum (sd : SelDist) (g : GammaOracle) (geno : List ℕ)
    (st : SelState) : ℚ × SelState :=
  addExtLoop sd g (mutCnt geno) (mutKeys geno) (0, st)

/-- An operation of the evaluator touching its mutable state: a
coefficient resolution, or the start of an apply pass
(m_newMutants.clear(), line 107). -/
inductive EvalOp where
  | resolve (mutant : ℕ)
  | newGeneration

/-- Run a sequence of evaluator operations, collecting the h value of
every resolved (s, h) pair. -/
def runEvalOps (sd : SelDist) (g : GammaOracle) :
    List EvalOp → SelState → SelState × List ℚ
  | [], st => (st, [])
  | .resolve m :: rest, st =>
    let (c, st') := resolveCoef sd g m st
    let (st'', hs) := runEvalOps sd g rest st'
    (st'', c.2 :: hs)
  | .newGeneration :: rest, st =>
    runEvalOps sd g rest { st with newMutants := [] }

/-! ## InfSitesMutator (MutationPlacer, sandbox.cpp lines 324-500)

The per-call state carries the mutant registry (m_mutants, a std::set of
alleles, modelled as a sorted-unique list), the population's haplotype
slots (one list of alleles per (individual, ploidy copy, chromosome)
triple, flattened into one list of slots), the saturation flag and the
output log.  Random draws (randInt for locateVacantLocus, the geometric
waiting times that produced the attempt list) are oracle inputs. -/

/-- The forward gap scan of locateVacantLocus: walk the registry elements
greater than loc (in sorted order) in lockstep with loc+1, loc+2, ...;
stop at the first position where the registry element differs (a vacant
coordinate), giving up when the registry run ends or the region end is
reached. -/
def fwdScan : List ℕ → ℕ → ℕ → Option ℕ
  | [], _, _ => none
  | e :: rest, loc1, stop =>
    if loc1 = stop then none
    else if e ≠ loc1 then some loc1
    else fwdScan rest (loc1 + 1) stop

/-- The backward scan of locateVacantLocus as written: the reverse
iterator is constructed from the iterator at loc and then decremented
once, so it dereferences to loc itself, and the first comparison
(loc ≠ loc - 1) always succeeds; the loop therefore returns loc - 1
whenever its guard loc - 1 ≠ beg lets it run at all.  (ULONG wraparound
at loc = 0 is not modelled; site identifiers are positive.) -/
def bwdScan (loc beg : ℕ) : Option ℕ :=
  if loc - 1 = beg then none else some (loc - 1)

/-- The registry rebuild (lines 347-355): clear m_mutants and re-insert
every non-zero allele of every genotype in the population. -/
def rebuildMutants (pop : List (List ℕ)) : List ℕ :=
  toSetL ((pop.flatMap id).filter (· ≠ 0))

/-- InfSitesMutator::locateVacantLocus (lines 324-373).  r is the
randInt(end - beg) draw, so loc = beg + r.  After the rebuild the code
re-runs both scans through iterators saved from before the clear; that
(invalidated-iterator) retry is modelled as the same scans over the
rebuilt registry. -/
def locateVacantLocus (mutants : List ℕ) (pop : List (List ℕ))
    (beg stop r : ℕ) : ℕ :=
  let loc := beg + r
  if loc ∉ mutants then loc
  else
    match fwdScan (mutants.filter (· > loc)) (loc + 1) stop with
    | some l => l
    | none =>
      match bwdScan loc beg with
      | some l => l
      | none =>
        let rebuilt := rebuildMutants pop
        match fwdScan (rebuilt.filter (· > loc)) (loc + 1) stop with
        | some l => l
        | none =>
          match bwdScan loc beg with
          | some l => l
          | none => 0

/-- The back-mutation shift (lines 476-491) on the slot segment starting
at the matched entry: t is the tail after the matched mutLoc entry.
Walk t for the first sentinel; if found, overwrite the matched entry
with the last non-zero entry before the sentinel and zero that entry
out (event code 1); if no sentinel exists the loop falls through and
the segment is left unchanged with nothing logged. -/
def backSeg (m : ℕ) (t : List ℕ) : List ℕ × Option ℕ :=
  let p := t.takeWhile (· ≠ 0)
  let s := t.dropWhile (· ≠ 0)
  if s = [] then (m :: t, none)
  else if hp : p = [] then (0 :: t, some 1)
  else (p.getLast hp :: (p.dropLast ++ 0 :: s), some 1)

/-- The slot write scan (lines 466-492): walk the slot left to right;
write mutLoc into the first sentinel entry (event code 0), or, if the
exact value is found first, perform the back-mutation shift (event
code 1).  Returns the updated slot and the logged event code, if any. -/
def mutateSlotEv (slot : List ℕ) (m : ℕ) : List ℕ × Option ℕ :=
  match slot with
  | [] => ([], none)
  | x :: rest =>
    if x = 0 then (m :: rest, some 0)
    else if x = m then backSeg m rest
    else
      let (r, ev) := mutateSlotEv rest m
      (x :: r, ev)

/-- The capacity check before the write (lines 453-465): if the slot's
last entry is non-zero the region is grown by 10 sentinel entries
(pop.addLoci; the zero padding this adds to the sibling slots of the
same chromosome does not change their site content). -/
def growSlot (slot : List ℕ) : List ℕ :=
  if slot.getLast?.getD 0 ≠ 0 then slot ++ List.replicate 10 0 else slot

/-- One log line: (generation, mapped position, individual index,
event code 0 = new / 1 = back mutation / 2 = relocated /
3 = rejected-saturated). -/
abbrev MutLog := ℕ × ℕ × ℕ × ℕ

/-- Per-apply-call state of InfSitesMutator under the infinite-site
model. -/
structure MutState where
  mutants : List ℕ
  pop : List (List ℕ)
  saturated : Bool
  log : List MutLog
  deriving DecidableEq, Repr

/-- One mutation attempt, after the cursor value has been mapped to a
position: the mapped position, the target slot (flattened
(individual, ploidy, chromosome) index), the individual index used in
log lines, the containing region's bounds and the randInt draw consumed
by a relocation, if one happens. -/
structure Attempt where
  mutLoc : ℕ
  slot : ℕ
  ind : ℕ
  beg : ℕ
  stop : ℕ
  r : ℕ
  deriving DecidableEq, Repr

/-- Registry insertion plus the genotype write (lines 449-492),
reached with the position finally chosen for the mutation. -/
def placeMutant (gen : ℕ) (st : MutState) (a : Attempt) : MutState :=
  let slot := growSlot (st.pop.getD a.slot [])
  let se := mutateSlotEv slot a.mutLoc
  { st with
    mutants := setInsert a.mutLoc st.mutants
    pop := st.pop.set a.slot se.1
    log := st.log ++ (se.2.toList.map (fun c => (gen, a.mutLoc, a.ind, c))) }

/-- One iteration of the per-individual mutation loop of
InfSitesMutator::apply (lines 401-493) under the infinite-site model
(m_model == 2).  In the saturated state the attempt is logged with code
3 and discarded.  Otherwise a registry hit is re-verified by a direct
scan of every genotype; a confirmed collision triggers
locateVacantLocus, whose failure (0) logs code 3 and enters the
saturated state, while success logs code 2 and places the mutation at
the relocated position.  An unconfirmed hit, or no hit, places the
mutation at the original mapped position. -/
def infSiteStep (gen : ℕ) (st : MutState) (a : Attempt) : MutState :=
  if st.saturated then
    { st with log := st.log ++ [(gen, a.mutLoc, a.ind, 3)] }
  else if a.mutLoc ∈ st.mutants then
    if st.pop.any (fun s => a.mutLoc ∈ s) then
      let newLoc := locateVacantLocus st.mutants st.pop a.beg a.stop a.r
      let st' := { st with
        log := st.log ++ [(gen, a.mutLoc, a.ind, if newLoc = 0 then 3 else 2)] }
      if newLoc = 0 then { st' with saturated := true }
      else placeMutant gen st' { a with mutLoc := newLoc }
    else placeMutant gen st a
  else placeMutant gen st a

/-- The whole per-call attempt loop; apply unconditionally returns true
(line 499). -/
def infSiteApply (gen : ℕ) (st : MutState) (attempts : List Attempt) :
    MutState × Bool :=
  (attempts.foldl (infSiteStep gen) st, true)

/-! ## InfSitesRecombinator::transmitGenotype0 (sandbox.cpp lines 503-584)

The r = 0.5 free-recombination path.  The parent is a list of
chromosomes, each carrying its two haplotype copies; the coin oracle
gives the randBit() outcome consumed for a once-occurring site (flips
are consumed in the sorted distinct-site order of the MutCounter map,
so indexing them by the site value captures every outcome).  numLoci
gives the offspring population's per-chromosome capacity. -/

/-- The entries actually tallied into MutCounter for one chromosome: with
a single chromosome the fast path walks the parent's whole genotype
(both copies concatenated) and breaks at the first zero; otherwise each
copy is walked separately, breaking at its own first zero. -/
def tallied (nCh : ℕ) (c0 c1 : List ℕ) : List ℕ :=
  if nCh = 1 then (c0 ++ c1).takeWhile (· ≠ 0)
  else c0.takeWhile (· ≠ 0) ++ c1.takeWhile (· ≠ 0)

/-- One chromosome of transmitGenotype0: keep a distinct site
unconditionally when it was tallied twice, and on a successful coin flip
when tallied once; write the kept sites (in sorted MutCounter order)
into the offspring slot, growing its capacity when alleles.size() + 1
exceeds it, and zero-fill the remainder.  An empty tally zero-fills the
whole slot. -/
def transmitChrom0 (coin : ℕ → Bool) (nCh : ℕ) (c0 c1 : List ℕ) (n : ℕ) :
    List ℕ :=
  let occ := tallied nCh c0 c1
  if occ = [] then List.replicate n 0
  else
    let alleles := (toSetL occ).filter (fun x => occ.count x = 2 ∨ coin x)
    let cap := if alleles.length + 1 > n then alleles.length + 2 else n
    alleles ++ List.replicate (cap - alleles.length) 0

/-- InfSitesRecombinator::transmitGenotype0: one offspring haplotype copy,
chromosome by chromosome. -/
def transmitGenotype0 (coin : ℕ → Bool) (parent : List (List ℕ × List ℕ))
    (numLoci : ℕ → ℕ) : List (List ℕ) :=
  (List.range parent.length).map (fun ch =>
    let c := parent.getD ch ([], [])
    transmitChrom0 coin parent.length c.1 c.2 (numLoci ch))

/-! ## Theorems -/

theorem mem_toSetL (l : List ℕ) (x : ℕ) : x ∈ toSetL l ↔ x ∈ l := by
  unfold toSetL
  rw [(List.perm_insertionSort _ _).mem_iff, List.mem_dedup]

theorem toSetL_sorted (l : List ℕ) : (toSetL l).Sorted (· ≤ ·) :=
  List.sorted_insertionSort _ _

theorem toSetL_nodup (l : List ℕ) : (toSetL l).Nodup :=
  (List.perm_insertionSort _ _).nodup_iff.mpr (List.nodup_dedup l)

theorem toSetL_sorted_lt (l : List ℕ) : (toSetL l).Sorted (· < ·) :=
  (toSetL_sorted l).lt_of_le (toSetL_nodup l)

theorem mem_setInsert (x y : ℕ) (l : List ℕ) :
    y ∈ setInsert x l ↔ y = x ∨ y ∈ l := by
  induction l with
  | nil => simp [setInsert]
  | cons z t ih =>
    by_cases h1 : x < z
    · simp only [setInsert, if_pos h1, List.mem_cons]
    · by_cases h2 : x = z
      · subst h2
        have he : setInsert x (x :: t) = x :: t := by
          simp [setInsert, h1]
        rw [he, List.mem_cons]
        tauto
      · simp only [setInsert, if_neg h1, if_neg h2, List.mem_cons, ih]
        tauto

theorem packedLeft_iff (l : List ℕ) :
    packedLeft l = true ↔
      ∃ a b, l = a ++ b ∧ (∀ x ∈ a, x ≠ 0) ∧ (∀ x ∈ b, x = 0) := by
  constructor
  · intro h
    refine ⟨l.takeWhile (· ≠ 0), l.dropWhile (· ≠ 0),
      (List.takeWhile_append_dropWhile (p := fun x => decide (x ≠ 0)) (l := l)).symm,
      ?_, ?_⟩
    · intro x hx
      have := List.mem_takeWhile_imp hx
      simpa using this
    · intro x hx
      have := List.all_eq_true.mp h x hx
      simpa using this
  · rintro ⟨a, b, rfl, ha, hb⟩
    unfold packedLeft
    induction a with
    | nil =>
      simp only [List.nil_append]
      cases b with
      | nil => simp
      | cons y ys =>
        have hy : y = 0 := hb y (by simp)
        subst hy
        simp only [List.dropWhile]
        simp only [decide_not]
        norm_num
        exact fun x hx => hb x (List.mem_cons_of_mem _ hx)
    | cons x xs ih =>
      have hx : x ≠ 0 := ha x (by simp)
      rw [List.cons_append, List.dropWhile_cons, if_pos (by simp [hx])]
      exact ih (fun y hy => ha y (List.mem_cons_of_mem _ hy))

theorem computeFixedLoop_subset (pop : List RInd) (common : List ℕ) :
    computeFixedLoop common pop ⊆ common := by
  induction pop generalizing common with
  | nil => simp [computeFixedLoop]
  | cons ind rest ih =>
    simp only [computeFixedLoop]
    by_cases h : ((common.filter (· ∈ ind.c0)).filter (· ∈ ind.c1)) = []
    · simp [h]
    · rw [if_neg h]
      intro x hx
      have h2 := ih _ hx
      simp only [List.mem_filter] at h2
      exact h2.1.1

theorem fixedSet_not_zero (pop : List RInd) : 0 ∉ fixedSet pop := by
  match pop with
  | [] => simp [fixedSet]
  | ind0 :: rest =>
    simp only [fixedSet]
    by_cases h : (toSetL ind0.c0).filter (· ≠ 0) = []
    · rw [if_pos h]
      simp
    · rw [if_neg h]
      intro hmem
      have hsub := computeFixedLoop_subset (ind0 :: rest) _ hmem
      have := List.of_mem_filter hsub
      simp at this

theorem mem_trimSlot_iff (fixed : List ℕ) (n : ℕ) (slot : List ℕ) (x : ℕ) :
    x ∈ trimSlot fixed n slot ↔
      (x ∈ slot ∧ x ≠ 0 ∧ x ∉ fixed) ∨
      (x = 0 ∧ n - ((toSetL slot).filter (fun y => y ≠ 0 ∧ y ∉ fixed)).length ≠ 0) := by
  simp only [trimSlot, List.mem_append, List.mem_filter, mem_toSetL, List.mem_replicate,
    decide_eq_true_eq]
  tauto

theorem takeWhile_append_zeros (l z : List ℕ) (hl : ∀ x ∈ l, x ≠ 0)
    (hz : ∀ x ∈ z, x = 0) : (l ++ z).takeWhile (· ≠ 0) = l := by
  induction l with
  | nil =>
    cases z with
    | nil => rfl
    | cons y ys =>
      have hy : y = 0 := hz y (by simp)
      subst hy
      simp [List.takeWhile_cons]
  | cons x xs ih =>
    have hx : x ≠ 0 := hl x (by simp)
    rw [List.cons_append, List.takeWhile_cons, if_pos (by simp [hx])]
    rw [ih (fun y hy => hl y (List.mem_cons_of_mem _ hy))]

theorem trimSlot_takeWhile (fixed : List ℕ) (n : ℕ) (slot : List ℕ) :
    (trimSlot fixed n slot).takeWhile (· ≠ 0) =
      (toSetL slot).filter (fun x => x ≠ 0 ∧ x ∉ fixed) := by
  unfold trimSlot
  apply takeWhile_append_zeros
  · intro x hx
    have h2 := (List.mem_filter.mp hx).2
    simp only [decide_eq_true_eq] at h2
    exact h2.1
  · intro x hx
    exact (List.eq_of_mem_replicate hx)

theorem trimSlot_length (fixed : List ℕ) (n : ℕ) (slot : List ℕ)
    (hn : slot.length = n) : (trimSlot fixed n slot).length = n := by
  unfold trimSlot
  have h1 : ((toSetL slot).filter (fun x => x ≠ 0 ∧ x ∉ fixed)).length ≤ n := by
    calc ((toSetL slot).filter (fun x => x ≠ 0 ∧ x ∉ fixed)).length
        ≤ (toSetL slot).length := List.length_filter_le _ _
      _ = slot.dedup.length := (List.perm_insertionSort _ _).length_eq
      _ ≤ slot.length := slot.dedup_sublist.length_le
      _ = n := hn
  simp only [List.length_append, List.length_replicate]
  omega

theorem trimSlot_packedLeft (fixed : List ℕ) (n : ℕ) (slot : List ℕ) :
    packedLeft (trimSlot fixed n slot) = true := by
  rw [packedLeft_iff]
  refine ⟨(toSetL slot).filter (fun x => x ≠ 0 ∧ x ∉ fixed),
    List.replicate (n - ((toSetL slot).filter (fun x => x ≠ 0 ∧ x ∉ fixed)).length) 0,
    rfl, ?_, ?_⟩
  · intro x hx
    have h2 := (List.mem_filter.mp hx).2
    simp only [decide_eq_true_eq] at h2
    exact h2.1
  · intro x hx
    exact List.eq_of_mem_replicate hx

/-- C3: after RevertFixedSites::apply returns, no haplotype copy of any
individual contains a site of the computed fixed set; and whenever the
population is empty, has no loci, or the fixed set is empty, apply
returns success and leaves every haplotype's contents unchanged. -/
theorem revertFixedSites_removes_fixed (n : ℕ) (pop : List RInd)
    (hlen : ∀ ind ∈ pop, ind.c0.length = n ∧ ind.c1.length = n) :
    (∀ s ∈ fixedSet pop, ∀ ind ∈ (revertApply n pop).1, s ∉ ind.c0 ∧ s ∉ ind.c1) ∧
    ((pop = [] ∨ n = 0 ∨ fixedSet pop = []) →
      (revertApply n pop).1 = pop ∧ (revertApply n pop).2 = true) := by
  constructor
  · intro s hs ind hind
    by_cases hemp : pop.isEmpty ∨ n = 0
    · rcases hemp with hemp | hemp
      · rw [List.isEmpty_iff] at hemp
        subst hemp
        simp [fixedSet] at hs
      · -- with no loci every span is empty, so the fixed set is empty
        subst hemp
        cases pop with
        | nil => simp [fixedSet] at hs
        | cons ind0 rest =>
          have h0 : ind0.c0 = [] := by
            have := (hlen ind0 (by simp)).1
            exact List.length_eq_zero.mp this
          simp [fixedSet, h0, toSetL] at hs
    · by_cases hfix : fixedSet pop = []
      · rw [hfix] at hs
        simp at hs
      · have hres : (revertApply n pop).1 =
            pop.map (fun ind =>
              ⟨trimSlot (fixedSet pop) n ind.c0, trimSlot (fixedSet pop) n ind.c1⟩) := by
          unfold revertApply
          rw [if_neg hemp, if_neg hfix]
        rw [hres] at hind
        rcases List.mem_map.mp hind with ⟨ind0, _, rfl⟩
        have hnotzero : s ≠ 0 := fun h => fixedSet_not_zero pop (h ▸ hs)
        constructor
        · intro hmem
          rcases (mem_trimSlot_iff _ _ _ _).mp hmem with ⟨_, _, hnot⟩ | ⟨h0, _⟩
          · exact hnot hs
          · exact hnotzero h0
        · intro hmem
          rcases (mem_trimSlot_iff _ _ _ _).mp hmem with ⟨_, _, hnot⟩ | ⟨h0, _⟩
          · exact hnot hs
          · exact hnotzero h0
  · intro h
    unfold revertApply
    rcases h with h | h | h
    · subst h
      simp
    · subst h
      simp
    · by_cases hemp : pop.isEmpty ∨ n = 0
      · rw [if_pos hemp]
        exact ⟨rfl, rfl⟩
      · rw [if_neg hemp, if_pos h]
        exact ⟨rfl, rfl⟩

theorem revertFixedSites_removes_fixed_witness :
    (∀ ind ∈ [(⟨[2, 5, 0], [2, 0, 0]⟩ : RInd), ⟨[2, 0, 0], [7, 2, 0]⟩],
      ind.c0.length = 3 ∧ ind.c1.length = 3) ∧
    (2 ∈ fixedSet [(⟨[2, 5, 0], [2, 0, 0]⟩ : RInd), ⟨[2, 0, 0], [7, 2, 0]⟩] ∧
      (2 ∉ ((revertApply 3 [(⟨[2, 5, 0], [2, 0, 0]⟩ : RInd), ⟨[2, 0, 0], [7, 2, 0]⟩]).1.getD 0 ⟨[], []⟩).c0 ∧
       2 ∉ ((revertApply 3 [(⟨[2, 5, 0], [2, 0, 0]⟩ : RInd), ⟨[2, 0, 0], [7, 2, 0]⟩]).1.getD 0 ⟨[], []⟩).c1)) :=
  ⟨by decide,
   by decide,
   (revertFixedSites_removes_fixed 3
      [(⟨[2, 5, 0], [2, 0, 0]⟩ : RInd), ⟨[2, 0, 0], [7, 2, 0]⟩] (by decide)).1
      2 (by decide) _ (by decide)⟩

/-- C10: when RevertFixedSites::apply actually rewrites haplotypes (the
fixed set is non-empty), every individual's every haplotype copy ends up
holding its surviving non-fixed, non-zero site identifiers in strictly
increasing order with duplicates removed, packed left with zero fill, at
the full span length. -/
theorem revertFixedSites_sorts_and_dedups (n : ℕ) (pop : List RInd)
    (hne : pop ≠ []) (hn : n ≠ 0) (hfix : fixedSet pop ≠ [])
    (hlen : ∀ ind ∈ pop, ind.c0.length = n ∧ ind.c1.length = n) :
    ∀ i, i < pop.length →
      (((revertApply n pop).1.getD i ⟨[], []⟩).c0 =
          trimSlot (fixedSet pop) n ((pop.getD i ⟨[], []⟩).c0) ∧
        (((revertApply n pop).1.getD i ⟨[], []⟩).c0.takeWhile (· ≠ 0)).Sorted (· < ·) ∧
        (((revertApply n pop).1.getD i ⟨[], []⟩).c0.takeWhile (· ≠ 0)).Nodup ∧
        packedLeft (((revertApply n pop).1.getD i ⟨[], []⟩).c0) = true ∧
        ((revertApply n pop).1.getD i ⟨[], []⟩).c0.length = n ∧
        (∀ x, x ∈ ((revertApply n pop).1.getD i ⟨[], []⟩).c0.takeWhile (· ≠ 0) ↔
          (x ∈ (pop.getD i ⟨[], []⟩).c0 ∧ x ≠ 0 ∧ x ∉ fixedSet pop))) ∧
      (((revertApply n pop).1.getD i ⟨[], []⟩).c1 =
          trimSlot (fixedSet pop) n ((pop.getD i ⟨[], []⟩).c1) ∧
        (((revertApply n pop).1.getD i ⟨[], []⟩).c1.takeWhile (· ≠ 0)).Sorted (· < ·) ∧
        (((revertApply n pop).1.getD i ⟨[], []⟩).c1.takeWhile (· ≠ 0)).Nodup ∧
        packedLeft (((revertApply n pop).1.getD i ⟨[], []⟩).c1) = true ∧
        ((revertApply n pop).1.getD i ⟨[], []⟩).c1.length = n ∧
        (∀ x, x ∈ ((revertApply n pop).1.getD i ⟨[], []⟩).c1.takeWhile (· ≠ 0) ↔
          (x ∈ (pop.getD i ⟨[], []⟩).c1 ∧ x ≠ 0 ∧ x ∉ fixedSet pop))) := by
  intro i hi
  have hemp : ¬(pop.isEmpty ∨ n = 0) := by
    simp [List.isEmpty_iff, hne, hn]
  have hres : (revertApply n pop).1 =
      pop.map (fun ind =>
        ⟨trimSlot (fixedSet pop) n ind.c0, trimSlot (fixedSet pop) n ind.c1⟩) := by
    unfold revertApply
    rw [if_neg hemp, if_neg hfix]
  have hget : (revertApply n pop).1.getD i ⟨[], []⟩ =
      ⟨trimSlot (fixedSet pop) n ((pop.getD i ⟨[], []⟩).c0),
       trimSlot (fixedSet pop) n ((pop.getD i ⟨[], []⟩).c1)⟩ := by
    rw [hres, List.getD_eq_getElem?_getD, List.getElem?_map,
      List.getElem?_eq_getElem hi]
    simp [List.getD_eq_getElem?_getD, List.getElem?_eq_getElem hi]
  have hmem : pop.getD i ⟨[], []⟩ ∈ pop := by
    rw [List.getD_eq_getElem?_getD, List.getElem?_eq_getElem hi]
    exact List.getElem_mem _
  have sortedPart : ∀ slot : List ℕ, slot.length = n →
      ((trimSlot (fixedSet pop) n slot).takeWhile (· ≠ 0)).Sorted (· < ·) ∧
      ((trimSlot (fixedSet pop) n slot).takeWhile (· ≠ 0)).Nodup ∧
      packedLeft (trimSlot (fixedSet pop) n slot) = true ∧
      (trimSlot (fixedSet pop) n slot).length = n ∧
      (∀ x, x ∈ (trimSlot (fixedSet pop) n slot).takeWhile (· ≠ 0) ↔
        (x ∈ slot ∧ x ≠ 0 ∧ x ∉ fixedSet pop)) := by
    intro slot hsl
    have hsorted : ((trimSlot (fixedSet pop) n slot).takeWhile (· ≠ 0)).Sorted (· < ·) := by
      rw [trimSlot_takeWhile]
      exact (toSetL_sorted_lt slot).filter _
    refine ⟨hsorted, hsorted.nodup, trimSlot_packedLeft _ _ _,
      trimSlot_length _ _ _ hsl, ?_⟩
    intro x
    rw [trimSlot_takeWhile, List.mem_filter, mem_toSetL]
    simp
  rw [hget]
  exact ⟨⟨rfl, sortedPart _ (hlen _ hmem).1⟩, ⟨rfl, sortedPart _ (hlen _ hmem).2⟩⟩

theorem revertFixedSites_sorts_and_dedups_witness :
    ((([(⟨[9, 2, 4, 0], [2, 9, 0, 0]⟩ : RInd), ⟨[2, 9, 7, 4], [7, 2, 9, 0]⟩] : List RInd) ≠ []) ∧
      (4 : ℕ) ≠ 0 ∧
      fixedSet [(⟨[9, 2, 4, 0], [2, 9, 0, 0]⟩ : RInd), ⟨[2, 9, 7, 4], [7, 2, 9, 0]⟩] ≠ [] ∧
      (0 : ℕ) < 2) ∧
    ((revertApply 4 [(⟨[9, 2, 4, 0], [2, 9, 0, 0]⟩ : RInd), ⟨[2, 9, 7, 4], [7, 2, 9, 0]⟩]).1.getD 1 ⟨[], []⟩).c0 =
      trimSlot (fixedSet [(⟨[9, 2, 4, 0], [2, 9, 0, 0]⟩ : RInd), ⟨[2, 9, 7, 4], [7, 2, 9, 0]⟩]) 4 [2, 9, 7, 4] :=
  ⟨⟨by decide, by decide, by decide, by decide⟩,
   ((revertFixedSites_sorts_and_dedups 4
      [(⟨[9, 2, 4, 0], [2, 9, 0, 0]⟩ : RInd), ⟨[2, 9, 7, 4], [7, 2, 9, 0]⟩]
      (by decide) (by decide) (by decide) (by decide) 1 (by decide)).1).1⟩

theorem lookup_mem {l : List (ℕ × SelCoef)} {k : ℕ} {v : SelCoef}
    (h : l.lookup k = some v) : (k, v) ∈ l := by
  induction l with
  | nil => simp [List.lookup] at h
  | cons p t ih =>
    rcases p with ⟨k', v'⟩
    rw [List.lookup] at h
    by_cases he : k = k'
    · subst he
      simp at h
      subst h
      exact List.mem_cons_self _ _
    · have hb : (k == k') = false := beq_false_of_ne he
      rw [hb] at h
      exact List.mem_cons_of_mem _ (ih h)

theorem additive_update (a : Bool) (h : ℚ) :
    (if a = true ∧ h ≠ 1/2 then false else a) = (a && decide (h = 1/2)) := by
  cases a <;> by_cases hh : h = 1/2 <;> simp [hh]

theorem getFitnessValue_additive (sd : SelDist) (g : GammaOracle) (m : ℕ)
    (st : SelState) :
    (getFitnessValue sd g m st).2.additive =
      (st.additive && decide ((getFitnessValue sd g m st).1.2 = 1/2)) := by
  cases sd with
  | func ret => exact additive_update st.additive _
  | dist params => exact additive_update st.additive _

theorem getFitnessValue_inv (sd : SelDist) (g : GammaOracle) (m : ℕ)
    (st : SelState)
    (hInv : st.additive = true → ∀ p ∈ st.selFactory, p.2.2 = 1/2) :
    (getFitnessValue sd g m st).2.additive = true →
      ∀ p ∈ (getFitnessValue sd g m st).2.selFactory, p.2.2 = 1/2 := by
  intro ha
  rw [getFitnessValue_additive, Bool.and_eq_true] at ha
  rcases ha with ⟨ha1, ha2⟩
  have hh : (getFitnessValue sd g m st).1.2 = 1/2 := of_decide_eq_true ha2
  cases sd with
  | func ret =>
    intro p hp
    exact hInv ha1 p hp
  | dist params =>
    intro p hp
    simp only [getFitnessValue, mapInsert, List.mem_cons] at hp
    rcases hp with rfl | hp
    · exact hh
    · exact hInv ha1 p (List.mem_of_mem_filter hp)

theorem resolveCoef_additive (sd : SelDist) (g : GammaOracle) (m : ℕ)
    (st : SelState)
    (hInv : st.additive = true → ∀ p ∈ st.selFactory, p.2.2 = 1/2) :
    (resolveCoef sd g m st).2.additive =
      (st.additive && decide ((resolveCoef sd g m st).1.2 = 1/2)) := by
  unfold resolveCoef
  cases hl : st.selFactory.lookup m with
  | some c =>
    simp only
    by_cases ha : st.additive = true
    · have : c.2 = 1/2 := hInv ha (m, c) (lookup_mem hl)
      simp [ha, this]
    · have : st.additive = false := Bool.eq_false_iff.mpr (fun e => ha e)
      simp [this]
  | none => exact getFitnessValue_additive sd g m st

theorem resolveCoef_inv (sd : SelDist) (g : GammaOracle) (m : ℕ)
    (st : SelState)
    (hInv : st.additive = true → ∀ p ∈ st.selFactory, p.2.2 = 1/2) :
    (resolveCoef sd g m st).2.additive = true →
      ∀ p ∈ (resolveCoef sd g m st).2.selFactory, p.2.2 = 1/2 := by
  unfold resolveCoef
  cases hl : st.selFactory.lookup m with
  | some c => exact hInv
  | none => exact getFitnessValue_inv sd g m st hInv

/-- C1 counterexample: when the coefficient comes from the user-supplied
function, getFitnessValue returns it without storing it in m_selFactory
and without appending the site to m_newMutants, contradicting the claim
that both happen for every resolution source. -/
theorem getFitnessValue_func_no_cache :
    (getFitnessValue (SelDist.func (fun _ _ => [3, 1])) (fun _ => 0) 7
      ⟨[], [], true, 0⟩).2.selFactory = [] ∧
    (getFitnessValue (SelDist.func (fun _ _ => [3, 1])) (fun _ => 0) 7
      ⟨[], [], true, 0⟩).2.newMutants = [] :=
  ⟨rfl, rfl⟩

/-- C1 (amended): a coefficient pair resolved from the configured
constant/gamma distribution is stored in m_selFactory keyed by the site
id, the site id is appended to m_newMutants exactly once, and a later
resolution of the same site returns the cached pair with the state
unchanged; a pair resolved from the user-supplied function is returned
without being cached or logged. -/
theorem getFitnessValue_dist_caches (params : List ℚ) (g : GammaOracle)
    (m : ℕ) (st : SelState) :
    ((getFitnessValue (SelDist.dist params) g m st).2.selFactory.lookup m =
        some (getFitnessValue (SelDist.dist params) g m st).1) ∧
    ((getFitnessValue (SelDist.dist params) g m st).2.newMutants =
        st.newMutants ++ [m]) ∧
    ((getFitnessValue (SelDist.dist params) g m st).2.newMutants.count m =
        st.newMutants.count m + 1) ∧
    (resolveCoef (SelDist.dist params) g m
        (getFitnessValue (SelDist.dist params) g m st).2 =
      ((getFitnessValue (SelDist.dist params) g m st).1,
        (getFitnessValue (SelDist.dist params) g m st).2)) ∧
    (∀ ret : ℕ → ℕ → List ℚ,
      (getFitnessValue (SelDist.func ret) g m st).2.selFactory = st.selFactory ∧
      (getFitnessValue (SelDist.func ret) g m st).2.newMutants = st.newMutants) := by
  have hlook : (getFitnessValue (SelDist.dist params) g m st).2.selFactory.lookup m =
      some (getFitnessValue (SelDist.dist params) g m st).1 := by
    simp [getFitnessValue, mapInsert, List.lookup]
  refine ⟨hlook, by simp [getFitnessValue], ?_, ?_, ?_⟩
  · simp [getFitnessValue, List.count_append]
  · unfold resolveCoef
    rw [hlook]
  · intro ret
    exact ⟨rfl, rfl⟩

/-- C8: the pure-additive flag is a monotone one-way switch: over any
sequence of evaluator operations (resolutions and per-apply clears of
m_newMutants), the final flag is the initial flag conjoined with
"every h resolved along the way equals 0.5"; hence once a resolution
yields h different from 0.5 the flag is false, and no operation ever
turns it back on.  The hypothesis states the instance invariant that a
true flag means every cached dominance is 0.5. -/
theorem additive_flag_monotone (sd : SelDist) (g : GammaOracle)
    (ops : List EvalOp) (st : SelState)
    (hInv : st.additive = true → ∀ p ∈ st.selFactory, p.2.2 = 1/2) :
    (runEvalOps sd g ops st).1.additive =
      (st.additive && (runEvalOps sd g ops st).2.all (fun x => decide (x = 1/2))) := by
  induction ops generalizing st with
  | nil => simp [runEvalOps]
  | cons op rest ih =>
    cases op with
    | newGeneration =>
      simp only [runEvalOps]
      exact ih { st with newMutants := [] } hInv
    | resolve m =>
      simp only [runEvalOps]
      have hstep := resolveCoef_additive sd g m st hInv
      have hinv' := resolveCoef_inv sd g m st hInv
      have htail := ih (resolveCoef sd g m st).2 hinv'
      simp only [List.all_cons]
      rw [htail, hstep, Bool.and_assoc, Bool.and_comm
        (decide ((resolveCoef sd g m st).1.2 = 1/2)), ← Bool.and_assoc]

theorem additive_flag_monotone_witness :
    ((⟨[], [], true, 0⟩ : SelState).additive = true →
      ∀ p ∈ (⟨[], [], true, 0⟩ : SelState).selFactory, p.2.2 = 1/2) ∧
    (runEvalOps (SelDist.dist [CONSTANT, 2, 1]) (fun _ => 0)
        [EvalOp.resolve 3, EvalOp.resolve 4] ⟨[], [], true, 0⟩).1.additive =
      (true && (runEvalOps (SelDist.dist [CONSTANT, 2, 1]) (fun _ => 0)
        [EvalOp.resolve 3, EvalOp.resolve 4] ⟨[], [], true, 0⟩).2.all
          (fun x => decide (x = 1/2))) :=
  ⟨by simp,
   additive_flag_monotone (SelDist.dist [CONSTANT, 2, 1]) (fun _ => 0)
     [EvalOp.resolve 3, EvalOp.resolve 4] ⟨[], [], true, 0⟩ (by simp)⟩

theorem dropWhile_append_zeros (l z : List ℕ) (hl : ∀ x ∈ l, x ≠ 0)
    (hz : ∀ x ∈ z, x = 0) : (l ++ z).dropWhile (· ≠ 0) = z := by
  induction l with
  | nil =>
    cases z with
    | nil => rfl
    | cons y ys =>
      have hy : y = 0 := hz y (by simp)
      subst hy
      simp [List.dropWhile_cons]
  | cons x xs ih =>
    have hx : x ≠ 0 := hl x (by simp)
    rw [List.cons_append, List.dropWhile_cons, if_pos (by simp [hx])]
    exact ih (fun y hy => hl y (List.mem_cons_of_mem _ hy))

theorem filter_nonzero_append (a b : List ℕ) (ha : ∀ x ∈ a, x ≠ 0)
    (hb : ∀ x ∈ b, x = 0) : (a ++ b).filter (· ≠ 0) = a := by
  rw [List.filter_append]
  have h1 : a.filter (· ≠ 0) = a :=
    List.filter_eq_self.mpr (fun x hx => by simpa using ha x hx)
  have h2 : b.filter (· ≠ 0) = [] := by
    rw [List.filter_eq_nil_iff]
    intro x hx
    simpa using hb x hx
  rw [h1, h2, List.append_nil]

theorem mutateSlotEv_skip (u w : List ℕ) (m : ℕ) (hm : m ≠ 0)
    (hu : ∀ x ∈ u, x ≠ 0 ∧ x ≠ m) :
    mutateSlotEv (u ++ m :: w) m = (u ++ (backSeg m w).1, (backSeg m w).2) := by
  induction u with
  | nil =>
    simp [mutateSlotEv, hm]
  | cons x u' ih =>
    have hx := hu x (by simp)
    have ih' := ih (fun y hy => hu y (List.mem_cons_of_mem _ hy))
    simp [mutateSlotEv, hx.1, hx.2, ih']

theorem backSeg_spec (m : ℕ) (v b : List ℕ) (hv : ∀ x ∈ v, x ≠ 0)
    (hb : ∀ x ∈ b, x = 0) (hbne : b ≠ []) :
    (backSeg m (v ++ b)).2 = some 1 ∧
    ∃ v', v'.Perm v ∧ (backSeg m (v ++ b)).1 = v' ++ 0 :: b := by
  have htake := takeWhile_append_zeros v b hv hb
  have hdrop := dropWhile_append_zeros v b hv hb
  simp only [backSeg, htake, hdrop]
  rw [if_neg hbne]
  rcases List.eq_nil_or_concat v with rfl | ⟨v0, q, rfl⟩
  · rw [dif_pos rfl]
    exact ⟨rfl, [], List.Perm.refl _, by simp⟩
  · simp only [List.concat_eq_append] at htake hdrop hv ⊢
    have hne : v0 ++ [q] ≠ [] := by simp
    rw [dif_neg hne]
    refine ⟨rfl, q :: v0, ?_, ?_⟩
    · exact (List.perm_append_singleton _ _).symm
    · rw [List.dropLast_concat, List.getLast_concat]
      simp

/-- C6: on a packed-left slot with no duplicate non-zero entries that
contains the mapped position and at least one sentinel entry, the
back-mutation branch of InfSitesMutator::apply leaves the slot packed
left, with exactly one fewer non-zero entry, with no duplicate non-zero
entries, and without the mapped position (and logs event code 1). -/
theorem backMutation_structure (slot : List ℕ) (m : ℕ)
    (hpl : packedLeft slot = true)
    (hnd : (slot.filter (· ≠ 0)).Nodup)
    (hm0 : m ≠ 0) (hmem : m ∈ slot) (h0 : (0 : ℕ) ∈ slot) :
    packedLeft (mutateSlotEv slot m).1 = true ∧
    ((mutateSlotEv slot m).1.filter (· ≠ 0)).length + 1 =
      (slot.filter (· ≠ 0)).length ∧
    ((mutateSlotEv slot m).1.filter (· ≠ 0)).Nodup ∧
    m ∉ (mutateSlotEv slot m).1 ∧
    (mutateSlotEv slot m).2 = some 1 := by
  obtain ⟨a, b, rfl, ha, hb⟩ := (packedLeft_iff slot).mp hpl
  have hbne : b ≠ [] := by
    intro h
    subst h
    rw [List.append_nil] at h0
    exact ha 0 h0 rfl
  have hfa : (a ++ b).filter (· ≠ 0) = a := filter_nonzero_append a b ha hb
  have hnda : a.Nodup := hfa ▸ hnd
  have hma : m ∈ a := by
    rcases List.mem_append.mp hmem with h | h
    · exact h
    · exact absurd (hb m h) hm0
  obtain ⟨u, v, rfl⟩ := List.append_of_mem hma
  have hnd2 : m ∉ u ++ v ∧ (u ++ v).Nodup := by
    have := List.nodup_middle.mp hnda
    exact ⟨(List.nodup_cons.mp this).1, (List.nodup_cons.mp this).2⟩
  have hu : ∀ x ∈ u, x ≠ 0 ∧ x ≠ m := by
    intro x hx
    refine ⟨ha x (List.mem_append.mpr (Or.inl hx)), ?_⟩
    intro h
    subst h
    exact hnd2.1 (List.mem_append.mpr (Or.inl hx))
  have hv : ∀ x ∈ v, x ≠ 0 :=
    fun x hx => ha x (List.mem_append.mpr (Or.inr (List.mem_cons_of_mem _ hx)))
  have hre : (u ++ m :: v) ++ b = u ++ m :: (v ++ b) := by simp
  rw [hre]
  rw [mutateSlotEv_skip u (v ++ b) m hm0 hu]
  obtain ⟨hev, v', hperm, hseg⟩ := backSeg_spec m v b hv hb hbne
  rw [hseg, hev]
  have hv' : ∀ x ∈ v', x ≠ 0 := fun x hx => hv x (hperm.subset hx)
  have hz' : ∀ x ∈ (0 : ℕ) :: b, x = 0 := by
    intro x hx
    rcases List.mem_cons.mp hx with rfl | hx
    · rfl
    · exact hb x hx
  have huv' : ∀ x ∈ u ++ v', x ≠ 0 := by
    intro x hx
    rcases List.mem_append.mp hx with h | h
    · exact (hu x h).1
    · exact hv' x h
  have hfr : (u ++ (v' ++ 0 :: b)).filter (· ≠ 0) = u ++ v' := by
    rw [← List.append_assoc]
    exact filter_nonzero_append (u ++ v') (0 :: b) huv' hz'
  refine ⟨?_, ?_, ?_, ?_, rfl⟩
  · rw [packedLeft_iff]
    exact ⟨u ++ v', 0 :: b, by simp, huv', hz'⟩
  · rw [hfr, ← hre, hfa]
    have : v'.length = v.length := hperm.length_eq
    simp [List.length_append, this]
    omega
  · rw [hfr]
    exact ((hperm.append_left u).nodup_iff).mpr hnd2.2
  · intro hmm
    rcases List.mem_append.mp hmm with h | h
    · exact (hu m h).2 rfl
    · rcases List.mem_append.mp h with h | h
      · exact hnd2.1 (List.mem_append.mpr (Or.inr (hperm.subset h)))
      · exact hm0 (hz' m h)

theorem backMutation_structure_witness :
    (packedLeft [3, 5, 7, 0] = true ∧
      (([3, 5, 7, 0] : List ℕ).filter (· ≠ 0)).Nodup ∧
      (5 : ℕ) ≠ 0 ∧ (5 : ℕ) ∈ [3, 5, 7, 0] ∧ (0 : ℕ) ∈ [3, 5, 7, 0]) ∧
    (packedLeft (mutateSlotEv [3, 5, 7, 0] 5).1 = true ∧
      ((mutateSlotEv [3, 5, 7, 0] 5).1.filter (· ≠ 0)).length + 1 =
        (([3, 5, 7, 0] : List ℕ).filter (· ≠ 0)).length ∧
      ((mutateSlotEv [3, 5, 7, 0] 5).1.filter (· ≠ 0)).Nodup ∧
      (5 : ℕ) ∉ (mutateSlotEv [3, 5, 7, 0] 5).1 ∧
      (mutateSlotEv [3, 5, 7, 0] 5).2 = some 1) :=
  ⟨⟨by decide, by decide, by decide, by decide, by decide⟩,
   backMutation_structure [3, 5, 7, 0] 5 (by decide) (by decide) (by decide)
     (by decide) (by decide)⟩

theorem infSiteStep_saturated (gen : ℕ) (st : MutState) (a : Attempt)
    (h : st.saturated = true) :
    infSiteStep gen st a = { st with log := st.log ++ [(gen, a.mutLoc, a.ind, 3)] } := by
  unfold infSiteStep
  rw [if_pos h]

theorem foldl_saturated (gen : ℕ) (l : List Attempt) (st : MutState)
    (h : st.saturated = true) :
    l.foldl (infSiteStep gen) st =
      { st with log := st.log ++ l.map (fun b => (gen, b.mutLoc, b.ind, 3)) } := by
  induction l generalizing st with
  | nil => simp
  | cons a l ih =>
    rw [List.foldl_cons, infSiteStep_saturated gen st a h, ih _ (by simp [h])]
    simp

/-- C7: in the infinite-site model, once the relocation search fails
(locateVacantLocus returns 0) during an apply call, the saturated state
holds for the rest of the call: the triggering attempt and every
subsequent attempt are logged with event code 3 and discarded without
touching any genotype or the mutant registry, and apply still returns
true. -/
theorem saturation_persists (gen : ℕ) (st : MutState) (a : Attempt)
    (l : List Attempt)
    (hsat : st.saturated = false)
    (hreg : a.mutLoc ∈ st.mutants)
    (hscan : st.pop.any (fun s => a.mutLoc ∈ s) = true)
    (hloc : locateVacantLocus st.mutants st.pop a.beg a.stop a.r = 0) :
    (infSiteApply gen st (a :: l)).1.pop = st.pop ∧
    (infSiteApply gen st (a :: l)).1.mutants = st.mutants ∧
    (infSiteApply gen st (a :: l)).1.saturated = true ∧
    (infSiteApply gen st (a :: l)).1.log =
      st.log ++ (gen, a.mutLoc, a.ind, 3) ::
        l.map (fun b => (gen, b.mutLoc, b.ind, 3)) ∧
    (infSiteApply gen st (a :: l)).2 = true := by
  have hstep : infSiteStep gen st a =
      { st with saturated := true,
                log := st.log ++ [(gen, a.mutLoc, a.ind, 3)] } := by
    unfold infSiteStep
    rw [if_neg (by simp [hsat]), if_pos hreg, if_pos (by simp [hscan]), hloc]
    rfl
  have happ : (infSiteApply gen st (a :: l)).1 =
      { st with saturated := true,
                log := (st.log ++ [(gen, a.mutLoc, a.ind, 3)]) ++
                  l.map (fun b => (gen, b.mutLoc, b.ind, 3)) } := by
    unfold infSiteApply
    rw [List.foldl_cons, hstep, foldl_saturated gen l _ (by simp)]
  rw [happ]
  refine ⟨rfl, rfl, rfl, ?_, rfl⟩
  simp

theorem saturation_persists_witness :
    ((false = false) ∧ (5 ∈ [5]) ∧
      ([[5, 0]].any (fun s => 5 ∈ s) = true) ∧
      locateVacantLocus [5] [[5, 0]] 4 6 1 = 0) ∧
    ((infSiteApply 9 ⟨[5], [[5, 0]], false, []⟩
        [⟨5, 0, 0, 4, 6, 1⟩, ⟨3, 0, 0, 4, 6, 0⟩]).1.pop = [[5, 0]] ∧
      (infSiteApply 9 ⟨[5], [[5, 0]], false, []⟩
        [⟨5, 0, 0, 4, 6, 1⟩, ⟨3, 0, 0, 4, 6, 0⟩]).1.log =
        [(9, 5, 0, 3), (9, 3, 0, 3)] ∧
      (infSiteApply 9 ⟨[5], [[5, 0]], false, []⟩
        [⟨5, 0, 0, 4, 6, 1⟩, ⟨3, 0, 0, 4, 6, 0⟩]).2 = true) := by
  have h := saturation_persists 9 ⟨[5], [[5, 0]], false, []⟩
    ⟨5, 0, 0, 4, 6, 1⟩ [⟨3, 0, 0, 4, 6, 0⟩]
    rfl (by decide) (by decide) (by decide)
  exact ⟨⟨rfl, by decide, by decide, by decide⟩, h.1,
    by rw [h.2.2.2.1]; decide, h.2.2.2.2⟩

theorem backSeg_codes (m : ℕ) (t : List ℕ) :
    (backSeg m t).2 = none ∨ (backSeg m t).2 = some 1 := by
  unfold backSeg
  by_cases h1 : t.dropWhile (· ≠ 0) = []
  · rw [if_pos h1]
    exact Or.inl rfl
  · rw [if_neg h1]
    by_cases h2 : t.takeWhile (· ≠ 0) = []
    · rw [dif_pos h2]
      exact Or.inr rfl
    · rw [dif_neg h2]
      exact Or.inr rfl

theorem mutateSlotEv_codes (slot : List ℕ) (m : ℕ) :
    (mutateSlotEv slot m).2 = none ∨ (mutateSlotEv slot m).2 = some 0 ∨
      (mutateSlotEv slot m).2 = some 1 := by
  induction slot with
  | nil => exact Or.inl rfl
  | cons x rest ih =>
    by_cases h1 : x = 0
    · subst h1
      simp only [mutateSlotEv, if_pos rfl]
      exact Or.inr (Or.inl rfl)
    · by_cases h2 : x = m
      · subst h2
        simp only [mutateSlotEv, if_neg h1, if_pos rfl]
        rcases backSeg_codes x rest with h | h
        · exact Or.inl h
        · exact Or.inr (Or.inr h)
      · simp only [mutateSlotEv, if_neg h1, if_neg h2]
        exact ih

/-- C9: in the infinite-site model, a mutant-registry hit that is not
confirmed by the direct scan of all current genotypes does not trigger
relocation: the mutation is placed at the original mapped position (the
slot write and the registry insertion both use the mapped position) and
no relocation event (code 2) is logged for it. -/
theorem registryHit_unconfirmed_no_relocation (gen : ℕ) (st : MutState)
    (a : Attempt)
    (hsat : st.saturated = false)
    (hreg : a.mutLoc ∈ st.mutants)
    (hscan : st.pop.any (fun s => a.mutLoc ∈ s) = false) :
    infSiteStep gen st a = placeMutant gen st a ∧
    (infSiteStep gen st a).mutants = setInsert a.mutLoc st.mutants ∧
    (infSiteStep gen st a).pop =
      st.pop.set a.slot (mutateSlotEv (growSlot (st.pop.getD a.slot [])) a.mutLoc).1 ∧
    (infSiteStep gen st a).saturated = false ∧
    (infSiteStep gen st a).log = st.log ++
      ((mutateSlotEv (growSlot (st.pop.getD a.slot [])) a.mutLoc).2.toList.map
        (fun c => (gen, a.mutLoc, a.ind, c))) ∧
    (∀ e ∈ (infSiteStep gen st a).log, e ∈ st.log ∨ e.2.2.2 ≠ 2) := by
  have hstep : infSiteStep gen st a = placeMutant gen st a := by
    unfold infSiteStep
    rw [if_neg (by simp [hsat]), if_pos hreg, if_neg (by simp [hscan])]
  refine ⟨hstep, by rw [hstep]; rfl, by rw [hstep]; rfl, by rw [hstep]; simp [placeMutant, hsat], ?_, ?_⟩
  · rw [hstep]
    rfl
  · intro e he
    rw [hstep] at he
    simp only [placeMutant, List.mem_append] at he
    rcases he with he | he
    · exact Or.inl he
    · right
      rcases mutateSlotEv_codes (growSlot (st.pop.getD a.slot [])) a.mutLoc with h | h | h
      · rw [h] at he
        simp at he
      · rw [h] at he
        simp at he
        rw [he]
        simp
      · rw [h] at he
        simp at he
        rw [he]
        simp

theorem registryHit_unconfirmed_no_relocation_witness :
    ((false = false) ∧ (5 ∈ [5]) ∧ ([[7, 0]].any (fun s => 5 ∈ s) = false)) ∧
    ((infSiteStep 9 ⟨[5], [[7, 0]], false, []⟩ ⟨5, 0, 0, 4, 6, 0⟩).mutants = [5] ∧
      (infSiteStep 9 ⟨[5], [[7, 0]], false, []⟩ ⟨5, 0, 0, 4, 6, 0⟩).pop = [[7, 5]] ∧
      (infSiteStep 9 ⟨[5], [[7, 0]], false, []⟩ ⟨5, 0, 0, 4, 6, 0⟩).log = [(9, 5, 0, 0)]) := by
  have h := registryHit_unconfirmed_no_relocation 9 ⟨[5], [[7, 0]], false, []⟩
    ⟨5, 0, 0, 4, 6, 0⟩ rfl (by decide) (by decide)
  refine ⟨⟨rfl, by decide, by decide⟩, ?_, ?_, ?_⟩
  · rw [h.2.1]
    decide
  · rw [h.2.2.1]
    decide
  · rw [h.2.2.2.2.1]
    decide

/-- C2 evidence: in the single-chromosome fast path of transmitGenotype0
the tally loop walks the parent's concatenated genotype (both haplotype
copies) and stops at the first sentinel entry, so with copy 0 = [5, 0]
and copy 1 = [5, 0] the doubly-present site 5 is tallied only once and
is dropped when its coin flip fails; the identical parent split over two
chromosomes (the per-copy tally path) keeps the site unconditionally. -/
theorem transmitGenotype0_fast_path_drops_shared_site :
    ((5 : ℕ) ∈ ([5, 0] : List ℕ)) ∧
    (transmitGenotype0 (fun _ => false) [([5, 0], [5, 0])] (fun _ => 2)) = [[0, 0]] ∧
    (5 : ℕ) ∉ (transmitGenotype0 (fun _ => false) [([5, 0], [5, 0])]
      (fun _ => 2)).getD 0 [] ∧
    (5 : ℕ) ∈ (transmitGenotype0 (fun _ => false)
      [([5, 0], [5, 0]), ([0, 0], [0, 0])] (fun _ => 2)).getD 0 [] := by
  decide

theorem mem_mutKeys (geno : List ℕ) (x : ℕ) :
    x ∈ mutKeys geno ↔ x ∈ geno ∧ x ≠ 0 := by
  unfold mutKeys
  rw [mem_toSetL, List.mem_filter]
  simp

theorem mulExtLoop_cached_bounds (sd : SelDist) (g : GammaOracle) (cnt : ℕ → ℕ)
    (keys : List ℕ) (acc : ℚ) (st : SelState)
    (hc : ∀ x ∈ keys, ∃ s h, st.selFactory.lookup x = some (s, h) ∧
      0 ≤ s ∧ s ≤ 1 ∧ 0 ≤ h ∧ h ≤ 1)
    (hacc : 0 ≤ acc) :
    (mulExtLoop sd g cnt keys (acc, st)).2 = st ∧
    0 ≤ (mulExtLoop sd g cnt keys (acc, st)).1 ∧
    (mulExtLoop sd g cnt keys (acc, st)).1 ≤ acc := by
  induction keys generalizing acc with
  | nil => exact ⟨rfl, hacc, le_refl acc⟩
  | cons x rest ih =>
    obtain ⟨s, h, hl, hs0, hs1, hh0, hh1⟩ := hc x (by simp)
    have hres : resolveCoef sd g x st = ((s, h), st) := by
      unfold resolveCoef
      rw [hl]
    have hf0 : 0 ≤ (if cnt x = 1 then 1 - s * h else 1 - s) := by
      split
      · have : s * h ≤ 1 := mul_le_one₀ hs1 hh0 hh1
        linarith
      · linarith
    have hf1 : (if cnt x = 1 then 1 - s * h else 1 - s) ≤ 1 := by
      split
      · have : 0 ≤ s * h := mul_nonneg hs0 hh0
        linarith
      · linarith
    have hstep : mulExtLoop sd g cnt (x :: rest) (acc, st) =
        mulExtLoop sd g cnt rest
          (acc * (if cnt x = 1 then 1 - s * h else 1 - s), st) := by
      simp only [mulExtLoop, hres]
    rw [hstep]
    have ihh := ih (acc * (if cnt x = 1 then 1 - s * h else 1 - s))
      (fun y hy => hc y (List.mem_cons_of_mem _ hy)) (mul_nonneg hacc hf0)
    refine ⟨ihh.1, ihh.2.1, le_trans ihh.2.2 ?_⟩
    exact mul_le_of_le_one_right hacc hf1

theorem addExtLoop_cached_bounds (sd : SelDist) (g : GammaOracle) (cnt : ℕ → ℕ)
    (keys : List ℕ) (acc : ℚ) (st : SelState)
    (hc : ∀ x ∈ keys, ∃ s h, st.selFactory.lookup x = some (s, h) ∧
      0 ≤ s ∧ s ≤ 1 ∧ 0 ≤ h ∧ h ≤ 1) :
    (addExtLoop sd g cnt keys (acc, st)).2 = st ∧
    acc ≤ (addExtLoop sd g cnt keys (acc, st)).1 := by
  induction keys generalizing acc with
  | nil => exact ⟨rfl, le_refl acc⟩
  | cons x rest ih =>
    obtain ⟨s, h, hl, hs0, hs1, hh0, hh1⟩ := hc x (by simp)
    have hres : resolveCoef sd g x st = ((s, h), st) := by
      unfold resolveCoef
      rw [hl]
    have hf0 : 0 ≤ (if cnt x = 1 then s * h else s) := by
      split
      · exact mul_nonneg hs0 hh0
      · exact hs0
    have hstep : addExtLoop sd g cnt (x :: rest) (acc, st) =
        addExtLoop sd g cnt rest
          (acc + (if cnt x = 1 then s * h else s), st) := by
      simp only [addExtLoop, hres]
    rw [hstep]
    have ihh := ih (acc + (if cnt x = 1 then s * h else s))
      (fun y hy => hc y (List.mem_cons_of_mem _ hy))
    exact ⟨ihh.1, le_trans (by linarith) ihh.2⟩

/-- C4 (amended): when every site of the genotype has a resolved (s, h)
pair in the SelectionCoefficientCache with s and h in [0, 1], the
general multiplicative and additive fitness values lie in [0, 1] and
the exponential fitness exp(-sum) lies in (0, 1]. -/
theorem fitness_values_bounded (sd : SelDist) (g : GammaOracle) (geno : List ℕ)
    (st : SelState)
    (hc : ∀ x ∈ geno, x ≠ 0 → ∃ s h, st.selFactory.lookup x = some (s, h) ∧
      0 ≤ s ∧ s ≤ 1 ∧ 0 ≤ h ∧ h ≤ 1) :
    (0 ≤ (randomSelMulFitnessExt sd g geno st).1 ∧
      (randomSelMulFitnessExt sd g geno st).1 ≤ 1) ∧
    (0 ≤ (randomSelAddFitnessExt sd g geno st).1 ∧
      (randomSelAddFitnessExt sd g geno st).1 ≤ 1) ∧
    (0 < Real.exp (-((randomSelExpFitnessExtSum sd g geno st).1 : ℝ)) ∧
      Real.exp (-((randomSelExpFitnessExtSum sd g geno st).1 : ℝ)) ≤ 1) := by
  have hkeys : ∀ x ∈ mutKeys geno, ∃ s h, st.selFactory.lookup x = some (s, h) ∧
      0 ≤ s ∧ s ≤ 1 ∧ 0 ≤ h ∧ h ≤ 1 := by
    intro x hx
    rcases (mem_mutKeys geno x).mp hx with ⟨hmem, hne⟩
    exact hc x hmem hne
  have hmul := mulExtLoop_cached_bounds sd g (mutCnt geno) (mutKeys geno) 1 st
    hkeys (by norm_num)
  have hadd := addExtLoop_cached_bounds sd g (mutCnt geno) (mutKeys geno) 0 st
    hkeys
  have hsum0 : 0 ≤ (addExtLoop sd g (mutCnt geno) (mutKeys geno) (0, st)).1 :=
    hadd.2
  obtain ⟨sum, st2, hEq⟩ : ∃ p q,
      addExtLoop sd g (mutCnt geno) (mutKeys geno) (0, st) = (p, q) := ⟨_, _, rfl⟩
  have hs0 : (0 : ℚ) ≤ sum := by
    rw [hEq] at hsum0
    exact hsum0
  refine ⟨⟨hmul.2.1, hmul.2.2⟩, ?_, ?_⟩
  · have hval : (randomSelAddFitnessExt sd g geno st).1 =
        if 1 - sum > 0 then 1 - sum else 0 := by
      unfold randomSelAddFitnessExt
      rw [hEq]
    rw [hval]
    constructor
    · split
      · linarith
      · norm_num
    · split
      · linarith
      · norm_num
  · have hcast : (0 : ℝ) ≤ ((randomSelExpFitnessExtSum sd g geno st).1 : ℝ) := by
      unfold randomSelExpFitnessExtSum
      rw [hEq]
      exact_mod_cast hs0
    refine ⟨Real.exp_pos _, ?_⟩
    rw [Real.exp_le_one_iff]
    linarith

theorem fitness_values_bounded_witness :
    (∀ x ∈ ([1, 0] : List ℕ), x ≠ 0 →
      ∃ s h, (⟨[(1, (1/2, 1/2))], [], true, 0⟩ : SelState).selFactory.lookup x =
        some (s, h) ∧ 0 ≤ s ∧ s ≤ 1 ∧ 0 ≤ h ∧ h ≤ 1) ∧
    (0 ≤ (randomSelMulFitnessExt (SelDist.dist [1, 0]) (fun _ => 0) [1, 0]
        ⟨[(1, (1/2, 1/2))], [], true, 0⟩).1 ∧
      (randomSelAddFitnessExt (SelDist.dist [1, 0]) (fun _ => 0) [1, 0]
        ⟨[(1, (1/2, 1/2))], [], true, 0⟩).1 ≤ 1 ∧
      0 < Real.exp (-((randomSelExpFitnessExtSum (SelDist.dist [1, 0]) (fun _ => 0)
        [1, 0] ⟨[(1, (1/2, 1/2))], [], true, 0⟩).1 : ℝ))) := by
  have hhyp : ∀ x ∈ ([1, 0] : List ℕ), x ≠ 0 →
      ∃ s h, (⟨[(1, (1/2, 1/2))], [], true, 0⟩ : SelState).selFactory.lookup x =
        some (s, h) ∧ 0 ≤ s ∧ s ≤ 1 ∧ 0 ≤ h ∧ h ≤ 1 := by
    intro x hx hne
    have hx2 : x = 1 ∨ x = 0 := by simpa using hx
    rcases hx2 with rfl | rfl
    · exact ⟨1/2, 1/2, rfl, by norm_num, by norm_num, by norm_num, by norm_num⟩
    · exact absurd rfl hne
  have h := fitness_values_bounded (SelDist.dist [1, 0]) (fun _ => 0) [1, 0]
    ⟨[(1, (1/2, 1/2))], [], true, 0⟩ hhyp
  exact ⟨hhyp, h.1.1, h.2.1.2, h.2.2.1⟩

/-- C4 counterexample: with a cached coefficient s = 2 the multiplicative
fitness of a homozygous single-site genotype is 1 - 2 = -1, outside
[0, 1]; the claimed bound does not hold for arbitrary resolved
coefficients. -/
theorem fitness_values_bounded_counterexample :
    (randomSelMulFitnessExt (SelDist.dist [1, 0]) (fun _ => 0) [1, 1]
      ⟨[(1, (2, 1/2))], [], true, 0⟩).1 = -1 ∧
    ¬(0 ≤ (randomSelMulFitnessExt (SelDist.dist [1, 0]) (fun _ => 0) [1, 1]
      ⟨[(1, (2, 1/2))], [], true, 0⟩).1) := by
  have hres : resolveCoef (SelDist.dist [1, 0]) (fun _ => 0) 1
      ⟨[(1, (2, 1/2))], [], true, 0⟩ =
      ((2, 1/2), ⟨[(1, (2, 1/2))], [], true, 0⟩) := by
    unfold resolveCoef
    rfl
  have hkeys : mutKeys [1, 1] = [1] := by rfl
  have hcnt : mutCnt [1, 1] 1 = 2 := by rfl
  have hval : (randomSelMulFitnessExt (SelDist.dist [1, 0]) (fun _ => 0) [1, 1]
      ⟨[(1, (2, 1/2))], [], true, 0⟩).1 = -1 := by
    unfold randomSelMulFitnessExt
    rw [hkeys]
    simp only [mulExtLoop, hres, hcnt]
    norm_num [mulExtLoop]
  exact ⟨hval, by rw [hval]; norm_num⟩

theorem addFastLoop_cached (sd : SelDist) (g : GammaOracle) (sel : ℕ → ℚ)
    (geno : List ℕ) (acc : ℚ) (st : SelState)
    (hc : ∀ x ∈ geno, x ≠ 0 → st.selFactory.lookup x = some (sel x, 1/2)) :
    addFastLoop sd g geno (acc, st) =
      (acc + ((geno.filter (· ≠ 0)).map (fun x => sel x / 2)).sum, st) := by
  induction geno generalizing acc with
  | nil => simp [addFastLoop]
  | cons x rest ih =>
    by_cases hx : x = 0
    · subst hx
      rw [show addFastLoop sd g (0 :: rest) (acc, st) =
          addFastLoop sd g rest (acc, st) by simp [addFastLoop]]
      rw [ih acc (fun y hy hne => hc y (List.mem_cons_of_mem _ hy) hne)]
      simp
    · have hres : resolveCoef sd g x st = ((sel x, 1/2), st) := by
        unfold resolveCoef
        rw [hc x (by simp) hx]
      have hstep : addFastLoop sd g (x :: rest) (acc, st) =
          addFastLoop sd g rest (acc + sel x / 2, st) := by
        simp only [addFastLoop, if_neg hx, hres]
      rw [hstep, ih _ (fun y hy hne => hc y (List.mem_cons_of_mem _ hy) hne)]
      rw [List.filter_cons_of_pos (by simp [hx])]
      simp only [List.map_cons, List.sum_cons]
      rw [add_assoc]

theorem addExtLoop_cached (sd : SelDist) (g : GammaOracle) (sel : ℕ → ℚ)
    (cnt : ℕ → ℕ) (keys : List ℕ) (acc : ℚ) (st : SelState)
    (hc : ∀ x ∈ keys, st.selFactory.lookup x = some (sel x, 1/2)) :
    addExtLoop sd g cnt keys (acc, st) =
      (acc + (keys.map (fun x => if cnt x = 1 then sel x * (1/2) else sel x)).sum,
        st) := by
  induction keys generalizing acc with
  | nil => simp [addExtLoop]
  | cons x rest ih =>
    have hres : resolveCoef sd g x st = ((sel x, 1/2), st) := by
      unfold resolveCoef
      rw [hc x (by simp)]
    have hstep : addExtLoop sd g cnt (x :: rest) (acc, st) =
        addExtLoop sd g cnt rest
          (acc + (if cnt x = 1 then sel x * (1/2) else sel x), st) := by
      simp only [addExtLoop, hres]
    rw [hstep, ih _ (fun y hy => hc y (List.mem_cons_of_mem _ hy))]
    simp only [List.map_cons, List.sum_cons]
    rw [add_assoc]

theorem half_sum_counts (l : List ℕ) (sel : ℕ → ℚ)
    (hcount : ∀ x ∈ l, l.count x ≤ 2) :
    (l.map (fun x => sel x / 2)).sum =
      ((toSetL l).map
        (fun x => if l.count x = 1 then sel x * (1/2) else sel x)).sum := by
  have h1 := Finset.sum_list_map_count l (fun x => sel x / 2)
  have h2 : ((toSetL l).map
        (fun x => if l.count x = 1 then sel x * (1/2) else sel x)).sum =
      (l.dedup.map
        (fun x => if l.count x = 1 then sel x * (1/2) else sel x)).sum :=
    (((List.perm_insertionSort (· ≤ ·) l.dedup)).map _).sum_eq
  have h3 : (l.dedup.map
        (fun x => if l.count x = 1 then sel x * (1/2) else sel x)).sum =
      l.dedup.toFinset.sum
        (fun x => if l.count x = 1 then sel x * (1/2) else sel x) :=
    (List.sum_toFinset _ (List.nodup_dedup l)).symm
  have h4 : l.dedup.toFinset = l.toFinset := by
    ext a
    simp [List.mem_toFinset, List.mem_dedup]
  rw [h1, h2, h3, h4]
  apply Finset.sum_congr rfl
  intro x hx
  have hmem : x ∈ l := List.mem_toFinset.mp hx
  have hpos : 1 ≤ l.count x := List.count_pos_iff.mpr hmem
  have hle : l.count x ≤ 2 := hcount x hmem
  interval_cases h : l.count x
  · rw [if_pos rfl, one_nsmul]
    ring
  · rw [if_neg (by norm_num), nsmul_eq_mul]
    push_cast
    ring

/-- C5: for a genotype whose two haplotype slots have no duplicate
non-zero entries (and are packed left), when every referenced site is
already cached with dominance h = 0.5, the fast additive path
(randomSelAddFitness, s/2 per occurrence, no deduplication) and the
general additive path (randomSelAddFitnessExt, s*h per heterozygous and
s per homozygous distinct site) return the same fitness value. -/
theorem fast_additive_equals_general (sd : SelDist) (g : GammaOracle)
    (sel : ℕ → ℚ) (c0 c1 : List ℕ) (st : SelState)
    (_hpl0 : packedLeft c0 = true) (_hpl1 : packedLeft c1 = true)
    (hnd0 : (c0.filter (· ≠ 0)).Nodup) (hnd1 : (c1.filter (· ≠ 0)).Nodup)
    (hc : ∀ x ∈ c0 ++ c1, x ≠ 0 → st.selFactory.lookup x = some (sel x, 1/2)) :
    (randomSelAddFitness sd g (c0 ++ c1) st).1 =
      (randomSelAddFitnessExt sd g (c0 ++ c1) st).1 := by
  have hcount : ∀ x ∈ (c0 ++ c1).filter (· ≠ 0),
      ((c0 ++ c1).filter (· ≠ 0)).count x ≤ 2 := by
    intro x hx
    rw [List.filter_append, List.count_append]
    have h1 := List.nodup_iff_count_le_one.mp hnd0 x
    have h2 := List.nodup_iff_count_le_one.mp hnd1 x
    omega
  have hA := addFastLoop_cached sd g sel (c0 ++ c1) 0 st hc
  have hkeysc : ∀ x ∈ mutKeys (c0 ++ c1),
      st.selFactory.lookup x = some (sel x, 1/2) := by
    intro x hx
    rcases (mem_mutKeys (c0 ++ c1) x).mp hx with ⟨hmem, hne⟩
    exact hc x hmem hne
  have hB := addExtLoop_cached sd g sel (mutCnt (c0 ++ c1))
    (mutKeys (c0 ++ c1)) 0 st hkeysc
  have hsums : (((c0 ++ c1).filter (· ≠ 0)).map (fun x => sel x / 2)).sum =
      ((mutKeys (c0 ++ c1)).map
        (fun x => if mutCnt (c0 ++ c1) x = 1 then sel x * (1/2) else sel x)).sum := by
    have hk : mutKeys (c0 ++ c1) = toSetL ((c0 ++ c1).filter (· ≠ 0)) := rfl
    have hcnt : mutCnt (c0 ++ c1) = fun x => ((c0 ++ c1).filter (· ≠ 0)).count x := rfl
    rw [hk, hcnt]
    exact half_sum_counts ((c0 ++ c1).filter (· ≠ 0)) sel hcount
  have hv1 : (randomSelAddFitness sd g (c0 ++ c1) st).1 =
      (if 1 - (0 + (((c0 ++ c1).filter (· ≠ 0)).map (fun x => sel x / 2)).sum) > 0
       then 1 - (0 + (((c0 ++ c1).filter (· ≠ 0)).map (fun x => sel x / 2)).sum)
       else 0) := by
    unfold randomSelAddFitness
    rw [hA]
  have hv2 : (randomSelAddFitnessExt sd g (c0 ++ c1) st).1 =
      (if 1 - (0 + ((mutKeys (c0 ++ c1)).map
          (fun x => if mutCnt (c0 ++ c1) x = 1 then sel x * (1/2) else sel x)).sum) > 0
       then 1 - (0 + ((mutKeys (c0 ++ c1)).map
          (fun x => if mutCnt (c0 ++ c1) x = 1 then sel x * (1/2) else sel x)).sum)
       else 0) := by
    unfold randomSelAddFitnessExt
    rw [hB]
  rw [hv1, hv2, hsums]

theorem fast_additive_equals_general_witness :
    (packedLeft [4, 7, 0] = true ∧ packedLeft [4, 0, 0] = true ∧
      (([4, 7, 0] : List ℕ).filter (· ≠ 0)).Nodup ∧
      (([4, 0, 0] : List ℕ).filter (· ≠ 0)).Nodup ∧
      (∀ x ∈ ([4, 7, 0] ++ [4, 0, 0] : List ℕ), x ≠ 0 →
        (⟨[(4, (1/4, 1/2)), (7, (1/8, 1/2))], [], true, 0⟩ : SelState).selFactory.lookup x =
          some ((fun y : ℕ => if y = 4 then (1/4 : ℚ) else 1/8) x, 1/2))) ∧
    (randomSelAddFitness (SelDist.dist [1, 0]) (fun _ => 0)
        ([4, 7, 0] ++ [4, 0, 0]) ⟨[(4, (1/4, 1/2)), (7, (1/8, 1/2))], [], true, 0⟩).1 =
      (randomSelAddFitnessExt (SelDist.dist [1, 0]) (fun _ => 0)
        ([4, 7, 0] ++ [4, 0, 0]) ⟨[(4, (1/4, 1/2)), (7, (1/8, 1/2))], [], true, 0⟩).1 := by
  have hhyp : ∀ x ∈ ([4, 7, 0] ++ [4, 0, 0] : List ℕ), x ≠ 0 →
      (⟨[(4, (1/4, 1/2)), (7, (1/8, 1/2))], [], true, 0⟩ : SelState).selFactory.lookup x =
        some ((fun y : ℕ => if y = 4 then (1/4 : ℚ) else 1/8) x, 1/2) := by
    intro x hx hne
    have hx2 : x = 4 ∨ x = 7 ∨ x = 0 := by
      simp at hx
      tauto
    rcases hx2 with rfl | rfl | rfl
    · rfl
    · rfl
    · exact absurd rfl hne
  refine ⟨⟨by decide, by decide, by decide, by decide, hhyp⟩, ?_⟩
  exact fast_additive_equals_general (SelDist.dist [1, 0]) (fun _ => 0)
    (fun y => if y = 4 then (1/4 : ℚ) else 1/8) [4, 7, 0] [4, 0, 0]
    ⟨[(4, (1/4, 1/2)), (7, (1/8, 1/2))], [], true, 0⟩
    (by decide) (by decide) (by decide) (by decide) hhyp

end SimuPOP
